import Mathlib

/-!
Verification development for the name-processing pipeline of `src/app.py`
(functions `enhanced_clean_text`, `clean_and_translate_raw_name`,
`recommend_storefront_name`, `process_data` and its inner helpers
`clean_text`, `combined_text_similarity`, `tversky_similarity`,
`jaro_winkler_reassessment`).  Strings are modelled as `List Char`,
pandas cells that may be null as `Option (List Char)`, and Python
floats as exact rationals.
-/

namespace NameProcessing

/-- Python's `\s` character class restricted to ASCII: the whitespace
characters recognised by `re.sub(r'\s+', ' ', ...)` and `str.strip()`. -/
def isPySpace (c : Char) : Bool :=
  c = ' ' || c = '\t' || c = '\n' || c = '\r' || c = '\x0b' || c = '\x0c'

/-- Regex word character (`\w` = `[a-zA-Z0-9_]`), used for `\b` boundaries. -/
def isWordChar (c : Char) : Bool :=
  c.isAlpha || c.isDigit || c = '_'

/-- The character class `[a-zA-Z0-9]` of the regex in `clean_text`. -/
def isAsciiAlnum (c : Char) : Bool :=
  c.isAlpha || c.isDigit

/-- One match attempt of the currency regex `\$\d+(\.\d{1,2})?` immediately
after a `'$'`: `cs` is the text following the dollar sign.  Returns the
remainder of the text after the (greedy) match, or `none` when no digit
follows the dollar sign. -/
def splitDollar (cs : List Char) : Option (List Char) :=
  let ds := cs.takeWhile Char.isDigit
  if ds = [] then none
  else
    match cs.drop ds.length with
    | '.' :: r2 =>
      let ds2 := (r2.takeWhile Char.isDigit).take 2
      if ds2 = [] then some (cs.drop ds.length) else some (r2.drop ds2.length)
    | r => some r

/-- Left-to-right removal of every match of `\$\d+(\.\d{1,2})?`
(first regex of `enhanced_clean_text`).  The fuel argument only bounds the
recursion depth; each step consumes at least one character, so fuel equal
to the length of the input (supplied by `dollarSub`) is always enough. -/
def dollarSubF : Nat → List Char → List Char
  | 0, l => l
  | _ + 1, [] => []
  | n + 1, c :: cs =>
    if c = '$' then
      match splitDollar cs with
      | some rest => dollarSubF n rest
      | none => c :: dollarSubF n cs
    else c :: dollarSubF n cs

/-- `re.sub(r'\$\d+(\.\d{1,2})?', '', text)` from `enhanced_clean_text`. -/
def dollarSub (l : List Char) : List Char := dollarSubF l.length l

/-- `re.sub(r'\s+', ' ', text)`: collapse every whitespace run to one `' '`.
The flag records whether the previous character was whitespace (in which
case the current run has already emitted its single space). -/
def collapseF : Bool → List Char → List Char
  | _, [] => []
  | prevSp, c :: cs =>
    if isPySpace c then
      if prevSp then collapseF true cs else ' ' :: collapseF true cs
    else c :: collapseF false cs

/-- Whitespace-run collapsing, second step of `enhanced_clean_text`. -/
def collapseWs (l : List Char) : List Char := collapseF false l

/-- Remove trailing Python whitespace (the right half of `str.strip()`). -/
def dropTrailingWs (l : List Char) : List Char :=
  (l.reverse.dropWhile isPySpace).reverse

/-- Python `str.strip()`: drop leading and trailing whitespace. -/
def stripWs (l : List Char) : List Char :=
  dropTrailingWs (l.dropWhile isPySpace)

/-- `enhanced_clean_text` from `src/app.py`: remove dollar amounts,
collapse whitespace runs, and strip. -/
def enhanced_clean_text (l : List Char) : List Char :=
  stripWs (collapseWs (dollarSub l))

/-- Verification predicate: every whitespace character of the text is a
plain `' '` and no whitespace character follows another (the shape of
`collapseWs` output).  The flag records whether the previous character
was whitespace. -/
def okWsF : Bool → List Char → Bool
  | _, [] => true
  | prevSp, c :: cs =>
    if isPySpace c then (!prevSp && (c == ' ')) && okWsF true cs
    else okWsF false cs

/-- Case-insensitive literal prefix match: strips `w` (the escaped regex
literal) off the front of the text, returning the remainder. -/
def ciStrip : List Char → List Char → Option (List Char)
  | [], s => some s
  | _ :: _, [] => none
  | wc :: ws, sc :: ss => if sc.toLower = wc.toLower then ciStrip ws ss else none

/-- Whether the text ahead starts with a regex word character
(`false` at end of input), for the trailing `\b` test. -/
def headIsWord : List Char → Bool
  | [] => false
  | c :: _ => isWordChar c

/-- `re.sub(r'\b{}\b'.format(re.escape(w)), repl, text, flags=re.IGNORECASE)`:
replace every whole-word case-insensitive occurrence of the literal `w`,
scanning left to right on the original text.  The flag records whether the
previous character of the original text is a word character (the `\b`
state); fuel equal to the input length (supplied by `subWordCI`) is always
enough since each step consumes at least one character.  An empty `w`
(pattern `\b\b`, zero-width matches) leaves the text unchanged, which
agrees with Python whenever the replacement is the empty string. -/
def subWordCIF (w repl : List Char) : Nat → Bool → List Char → List Char
  | 0, _, s => s
  | _ + 1, _, [] => []
  | n + 1, prevW, c :: cs =>
    if w.isEmpty then c :: cs
    else if prevW != isWordChar c then
      match ciStrip w (c :: cs) with
      | some rest =>
        if isWordChar (w.getLast?.getD 'a') != headIsWord rest then
          repl ++ subWordCIF w repl n (isWordChar (w.getLast?.getD 'a')) rest
        else c :: subWordCIF w repl n (isWordChar c) cs
      | none => c :: subWordCIF w repl n (isWordChar c) cs
    else c :: subWordCIF w repl n (isWordChar c) cs

/-- Whole-word case-insensitive substitution (the `re.sub` calls of
`clean_and_translate_raw_name`). -/
def subWordCI (w repl s : List Char) : List Char :=
  subWordCIF w repl s.length false s

/-- Python `str.title()` on ASCII text: a letter is uppercased when the
previous character is not a letter, lowercased otherwise.  The flag
records whether the previous character was a letter. -/
def pyTitleF : Bool → List Char → List Char
  | _, [] => []
  | prevAl, c :: cs =>
    (if c.isAlpha then (if prevAl then c.toLower else c.toUpper) else c)
      :: pyTitleF (c.isAlpha) cs

/-- Python `str.title()`. -/
def pyTitle (l : List Char) : List Char := pyTitleF false l

/-- Python `str(...)` applied to a pandas cell: a missing value (NaN)
prints as the literal string `nan`. -/
def pyStr : Option (List Char) → List Char
  | none => ['n', 'a', 'n']
  | some s => s

/-- pandas `.astype(str)` on one cell: a missing value becomes the literal
string `nan`; an existing string is unchanged. -/
def astypeStr : Option (List Char) → List Char
  | none => ['n', 'a', 'n']
  | some s => s

/-- pandas `.fillna('')` applied after `.astype(str)` (line 51 of
`src/app.py`): the column already has string dtype with no missing
values left, so the call is the identity on every cell. -/
def fillnaEmptyOnStr (s : List Char) : List Char := s

/-- `clean_and_translate_raw_name(raw_name, brand_name, abbreviation_mapping)`
from `src/app.py`: coerce a null brand to `''` (`pd.notna` test), clean the
raw name, expand every abbreviation whole-word case-insensitively in
mapping order, excise the brand whole-word case-insensitively, strip,
and title-case. -/
def clean_and_translate_raw_name (rawName : List Char)
    (brandCell : Option (List Char))
    (mapping : List (List Char × List Char)) : List Char :=
  let brand := match brandCell with | none => [] | some b => b
  let c1 := enhanced_clean_text rawName
  let c2 := mapping.foldl (fun acc p => subWordCI p.1 p.2 acc) c1
  pyTitle (stripWs (subWordCI brand [] c2))

/-- One input row of `process_data`, restricted to the columns the scored
outputs depend on.  `storefrontBrand` and `storefrontName` are raw cells
that may be null; `additional` are the 0-3 auxiliary cells. -/
structure Row where
  rawName : List Char
  storefrontBrand : Option (List Char)
  storefrontName : Option (List Char)
  additional : List (Option (List Char))

/-- The per-run scoring configuration of `process_data`. -/
structure Config where
  alpha : ℚ
  beta : ℚ
  jaroCount : Nat
  useJaroWinkler : Bool

/-- The storefront-brand value every later step sees, after line 51 of
`src/app.py`: `data[storefront_brand_col].astype(str).fillna('')`. -/
def storefrontBrandValue (row : Row) : List Char :=
  fillnaEmptyOnStr (astypeStr row.storefrontBrand)

/-- The `cleaned_raw_name` column (line 54). -/
def cleaned_raw_name (row : Row) (mapping : List (List Char × List Char)) :
    List Char :=
  clean_and_translate_raw_name row.rawName (some (storefrontBrandValue row)) mapping

/-- The `recommended_storefront_name` column (lines 41-47, 55):
`f"{brand_name} {clean_name}"`. -/
def recommended_storefront_name (row : Row)
    (mapping : List (List Char × List Char)) : List Char :=
  storefrontBrandValue row ++ ' ' :: cleaned_raw_name row mapping

/-- The `separated_brand_name` column (line 57): a copy of the storefront
brand column. -/
def separated_brand_name (row : Row) : List Char :=
  storefrontBrandValue row

/-- Python `str.replace(old, '')`: delete every occurrence of `old`,
scanning left to right, non-overlapping, case-sensitively.  Fuel equal to
the input length (supplied by `pyReplaceDel`) is always enough since each
step consumes at least one character.  When `old` is empty Python's
`replace` with an empty replacement returns the string unchanged, as here. -/
def pyReplaceDelF (old : List Char) : Nat → List Char → List Char
  | 0, s => s
  | _ + 1, [] => []
  | n + 1, c :: cs =>
    if !old.isEmpty && List.isPrefixOf old (c :: cs) then
      pyReplaceDelF old n ((c :: cs).drop old.length)
    else c :: pyReplaceDelF old n cs

/-- Python `str.replace(old, '')`. -/
def pyReplaceDel (old s : List Char) : List Char :=
  pyReplaceDelF old s.length s

/-- The `separated_storefront_name` column (line 58):
`row['recommended_storefront_name'].replace(row[storefront_brand_col], '').strip()`. -/
def separated_storefront_name (row : Row)
    (mapping : List (List Char × List Char)) : List Char :=
  stripWs (pyReplaceDel (storefrontBrandValue row)
    (recommended_storefront_name row mapping))

/-- The inner `clean_text` of `process_data` (lines 60-61):
`re.sub(r'[^a-zA-Z0-9\s]', '', text).lower()`. -/
def clean_text (l : List Char) : List Char :=
  (l.filter (fun c => isAsciiAlnum c || isPySpace c)).map Char.toLower

/-- Round half to even on rationals, the rounding mode of Python's
built-in `round` and of pandas `Series.round`. -/
def rhe (q : ℚ) : ℤ :=
  if q - ⌊q⌋ < 1 / 2 then ⌊q⌋
  else if 1 / 2 < q - ⌊q⌋ then ⌊q⌋ + 1
  else if 2 ∣ ⌊q⌋ then ⌊q⌋ else ⌊q⌋ + 1

/-- Python `round(x, 2)`. -/
def pyRound2 (q : ℚ) : ℚ := (rhe (q * 100) : ℚ) / 100

/-- The Tversky denominator of `tversky_similarity` (line 83):
`intersection + alpha * differences_a + beta * differences_b`,
over the sets of distinct characters of the two strings. -/
def tversky_total (a b : List Char) (alpha beta : ℚ) : ℚ :=
  ((a.toFinset ∩ b.toFinset).card : ℚ)
    + alpha * ((a.toFinset \ b.toFinset).card : ℚ)
    + beta * ((b.toFinset \ a.toFinset).card : ℚ)

/-- `tversky_similarity(a, b, alpha, beta)` from `process_data`
(lines 77-84): `round(0 if total == 0 else intersection / total, 2)`. -/
def tversky_similarity (a b : List Char) (alpha beta : ℚ) : ℚ :=
  pyRound2 (if tversky_total a b alpha beta = 0 then 0
    else ((a.toFinset ∩ b.toFinset).card : ℚ) / tversky_total a b alpha beta)

/-- `" ".join([clean_text(str(add)) for add in additional_values if pd.notna(add)])`. -/
def auxJoin (additional : List (Option (List Char))) : List Char :=
  List.intercalate [' '] ((additional.filterMap id).map (fun v => clean_text v))

/-- The combined string `clean_text(str(x)) + " " + <joined auxiliary text>`
built by `combined_text_similarity` for each side (lines 71-74). -/
def combinedStr (x : Option (List Char))
    (additional : List (Option (List Char))) : List Char :=
  clean_text (pyStr x) ++ ' ' :: auxJoin additional

/-- `combined_text_similarity(a, b, additional_values)` from `process_data`
(lines 70-75), with the run's `tversky_alpha`/`tversky_beta` passed
explicitly. -/
def combined_text_similarity (a b : Option (List Char))
    (additional : List (Option (List Char))) (alpha beta : ℚ) : ℚ :=
  tversky_similarity (combinedStr a additional) (combinedStr b additional)
    alpha beta

/-- The `brand_score` column before any reassessment (line 93):
similarity of `separated_brand_name` with the storefront brand column. -/
def brand_score (cfg : Config) (row : Row) : ℚ :=
  combined_text_similarity (some (separated_brand_name row))
    (some (storefrontBrandValue row)) row.additional cfg.alpha cfg.beta

/-- The `name_score` column (line 94): similarity of the storefront name
with `separated_storefront_name`. -/
def name_score (cfg : Config) (row : Row)
    (mapping : List (List Char × List Char)) : ℚ :=
  combined_text_similarity row.storefrontName
    (some (separated_storefront_name row mapping)) row.additional
    cfg.alpha cfg.beta

/-- `jaro_winkler_reassessment` (lines 86-91), parameterised by the
external library function `jellyfish.jaro_winkler_similarity` (`jw`),
which is outside the repository: clean and truncate both inputs to
`jaro_count` characters, truncate the joined auxiliary text likewise,
and apply `jw` to the two combined strings. -/
def jaro_winkler_reassessment (jw : List Char → List Char → ℚ)
    (count : Nat) (row : Row) : ℚ :=
  let a := (clean_text (storefrontBrandValue row)).take count
  let b := (clean_text row.rawName).take count
  let j := (auxJoin row.additional).take count
  jw (a ++ ' ' :: j) (b ++ ' ' :: j)

/-- The final `brand_score` column after lines 96-100: when
`use_jaro_winkler` is set, rows whose primary brand score is below 0.51
are replaced by the rounded Jaro-Winkler reassessment, and the whole
column is rounded to 2 decimals again. -/
def brand_score_final (jw : List Char → List Char → ℚ) (cfg : Config)
    (row : Row) : ℚ :=
  if cfg.useJaroWinkler then
    pyRound2 (if brand_score cfg row < 51 / 100 then
        pyRound2 (jaro_winkler_reassessment jw cfg.jaroCount row)
      else brand_score cfg row)
  else brand_score cfg row

/-- The review flag of lines 102-103: `'Y' if score <= 0.75 else 'N'`. -/
def needs_review_flag (s : ℚ) : String :=
  if s ≤ 3 / 4 then "Y" else "N"

/-- The `needs_review_brand` column (line 102). -/
def needs_review_brand (jw : List Char → List Char → ℚ) (cfg : Config)
    (row : Row) : String :=
  needs_review_flag (brand_score_final jw cfg row)

/-- The `needs_review_name` column (line 103). -/
def needs_review_name (cfg : Config) (row : Row)
    (mapping : List (List Char × List Char)) : String :=
  needs_review_flag (name_score cfg row mapping)

/-- Modelled from the claim's wording for C4: remove only the first
literal occurrence of `old` from the string (exactly once, not
whole-word). -/
def removeFirstOcc (old : List Char) : List Char → List Char
  | [] => []
  | c :: cs =>
    if !old.isEmpty && List.isPrefixOf old (c :: cs) then (c :: cs).drop old.length
    else c :: removeFirstOcc old cs

/-- Modelled from the amended wording for C4: the fragments of the string
between successive (left-to-right, non-overlapping) occurrences of `old`;
concatenating them is the string with every occurrence of `old` removed.
Fuel as in `pyReplaceDelF`. -/
def splitOnSubF (old : List Char) : Nat → List Char → List (List Char)
  | 0, s => [s]
  | _ + 1, [] => [[]]
  | n + 1, c :: cs =>
    if !old.isEmpty && List.isPrefixOf old (c :: cs) then
      [] :: splitOnSubF old n ((c :: cs).drop old.length)
    else
      match splitOnSubF old n cs with
      | f :: rest => (c :: f) :: rest
      | [] => [[c]]

/-- Fragments of `s` between occurrences of `old`. -/
def splitOnSub (old s : List Char) : List (List Char) :=
  splitOnSubF old s.length s

/-! ## Rounding lemmas -/

theorem rhe_eq_low (q : ℚ) (n : ℤ) (h1 : (n : ℚ) ≤ q)
    (h2 : q < (n : ℚ) + 1 / 2) : rhe q = n := by
  have hf : ⌊q⌋ = n := Int.floor_eq_iff.mpr ⟨h1, by linarith⟩
  unfold rhe
  rw [hf, if_pos (by linarith)]

theorem rhe_eq_high (q : ℚ) (n : ℤ) (h1 : (n : ℚ) + 1 / 2 < q)
    (h2 : q < (n : ℚ) + 1) : rhe q = n + 1 := by
  have hf : ⌊q⌋ = n := Int.floor_eq_iff.mpr ⟨by linarith, by linarith⟩
  unfold rhe
  rw [hf, if_neg (by linarith), if_pos (by linarith)]

theorem rhe_bounds (q : ℚ) : ⌊q⌋ ≤ rhe q ∧ rhe q ≤ ⌊q⌋ + 1 := by
  unfold rhe
  split_ifs <;> omega

theorem rhe_nonneg (q : ℚ) (h : 0 ≤ q) : 0 ≤ rhe q := by
  have h1 := (rhe_bounds q).1
  have h2 : (0 : ℤ) ≤ ⌊q⌋ := Int.floor_nonneg.mpr h
  omega

theorem rhe_le_int (q : ℚ) (n : ℤ) (h : q ≤ (n : ℚ)) : rhe q ≤ n := by
  rcases lt_or_le ⌊q⌋ n with hlt | hge
  · have h2 := (rhe_bounds q).2
    omega
  · have hq : (⌊q⌋ : ℚ) ≤ q := Int.floor_le q
    have hnq : (n : ℚ) ≤ q := le_trans (by exact_mod_cast hge) hq
    have := rhe_eq_low q n hnq (by linarith)
    omega

theorem pyRound2_zero : pyRound2 0 = 0 := by
  unfold pyRound2
  rw [show (0 : ℚ) * 100 = 0 by norm_num, rhe_eq_low 0 0 (by norm_num) (by norm_num)]
  norm_num

theorem pyRound2_one : pyRound2 1 = 1 := by
  unfold pyRound2
  rw [show (1 : ℚ) * 100 = 100 by norm_num,
    rhe_eq_low 100 100 (by norm_num) (by norm_num)]
  norm_num

theorem pyRound2_eq_low (q : ℚ) (n : ℤ) (h1 : (n : ℚ) ≤ q * 100)
    (h2 : q * 100 < (n : ℚ) + 1 / 2) : pyRound2 q = (n : ℚ) / 100 := by
  unfold pyRound2
  rw [rhe_eq_low (q * 100) n h1 h2]

theorem pyRound2_eq_high (q : ℚ) (n : ℤ) (h1 : (n : ℚ) + 1 / 2 < q * 100)
    (h2 : q * 100 < (n : ℚ) + 1) : pyRound2 q = ((n : ℚ) + 1) / 100 := by
  unfold pyRound2
  rw [rhe_eq_high (q * 100) n h1 h2]
  push_cast
  ring

theorem pyRound2_bounds (q : ℚ) (h0 : 0 ≤ q) (h1 : q ≤ 1) :
    0 ≤ pyRound2 q ∧ pyRound2 q ≤ 1 := by
  unfold pyRound2
  have hnn : 0 ≤ rhe (q * 100) := rhe_nonneg (q * 100) (by linarith)
  have hle : rhe (q * 100) ≤ 100 := rhe_le_int (q * 100) 100 (by push_cast; linarith)
  constructor
  · apply div_nonneg _ (by norm_num)
    exact_mod_cast hnn
  · rw [div_le_one (by norm_num)]
    exact_mod_cast hle

/-! ## Tversky-score lemmas -/

theorem toFinset_card_pos (x : List Char) (hx : x ≠ []) : 0 < x.toFinset.card := by
  rcases x with _ | ⟨c, cs⟩
  · exact absurd rfl hx
  · exact Finset.card_pos.mpr ⟨c, by simp⟩

theorem tversky_int_div (x y : List Char) (alpha beta : ℚ) :
    ∃ k : ℤ, tversky_similarity x y alpha beta = (k : ℚ) / 100 :=
  ⟨_, rfl⟩

theorem tversky_same (x : List Char) (hx : x ≠ []) (alpha beta : ℚ) :
    tversky_similarity x x alpha beta = 1 := by
  have hcard : 0 < x.toFinset.card := toFinset_card_pos x hx
  have hne : ((x.toFinset.card : ℚ)) ≠ 0 := Nat.cast_ne_zero.mpr hcard.ne'
  have htot : tversky_total x x alpha beta = ((x.toFinset.card : ℚ)) := by
    unfold tversky_total
    simp
  unfold tversky_similarity
  rw [htot, Finset.inter_self, if_neg hne, div_self hne, pyRound2_one]

theorem tversky_mem_unit (x y : List Char) (alpha beta : ℚ)
    (ha : 0 ≤ alpha) (hb : 0 ≤ beta) :
    0 ≤ tversky_similarity x y alpha beta ∧
    tversky_similarity x y alpha beta ≤ 1 := by
  unfold tversky_similarity
  have hi0 : (0 : ℚ) ≤ ((x.toFinset ∩ y.toFinset).card : ℚ) := Nat.cast_nonneg _
  have hda : (0 : ℚ) ≤ alpha * ((x.toFinset \ y.toFinset).card : ℚ) :=
    mul_nonneg ha (Nat.cast_nonneg _)
  have hdb : (0 : ℚ) ≤ beta * ((y.toFinset \ x.toFinset).card : ℚ) :=
    mul_nonneg hb (Nat.cast_nonneg _)
  have hit : ((x.toFinset ∩ y.toFinset).card : ℚ) ≤ tversky_total x y alpha beta := by
    unfold tversky_total
    linarith
  by_cases h0 : tversky_total x y alpha beta = 0
  · rw [if_pos h0, pyRound2_zero]
    norm_num
  · rw [if_neg h0]
    have htpos : 0 < tversky_total x y alpha beta := by
      rcases lt_or_eq_of_le (le_trans hi0 hit) with h | h
      · exact h
      · exact absurd h.symm h0
    exact pyRound2_bounds _ (div_nonneg hi0 htpos.le)
      ((div_le_one htpos).mpr hit)

theorem combinedStr_ne_nil (x : Option (List Char))
    (additional : List (Option (List Char))) :
    combinedStr x additional ≠ [] := by
  unfold combinedStr
  simp

theorem combined_one_of_clean_eq (a b : Option (List Char))
    (additional : List (Option (List Char))) (alpha beta : ℚ)
    (h : clean_text (pyStr a) = clean_text (pyStr b)) :
    combined_text_similarity a b additional alpha beta = 1 := by
  unfold combined_text_similarity
  have hcb : combinedStr a additional = combinedStr b additional := by
    unfold combinedStr
    rw [h]
  rw [hcb]
  exact tversky_same _ (combinedStr_ne_nil b additional) alpha beta

/-! ## Claim C1 -/

/-- Claim C1: for every row, configuration, and even every behaviour of the
external Jaro-Winkler library, the primary brand score compares the
`separated_brand_name` column (a copy of the storefront brand column) with
the storefront brand column itself, so it is 1.0; the reassessment gate
`brand_score < 0.51` therefore never fires, the final brand score is 1.0,
and `needs_review_brand` is `'N'`. -/
theorem brand_score_always_one (jw : List Char → List Char → ℚ)
    (cfg : Config) (row : Row) :
    brand_score cfg row = 1 ∧
    ¬ brand_score cfg row < 51 / 100 ∧
    brand_score_final jw cfg row = 1 ∧
    needs_review_brand jw cfg row = "N" := by
  have h1 : brand_score cfg row = 1 :=
    combined_one_of_clean_eq _ _ row.additional cfg.alpha cfg.beta rfl
  have h2 : ¬ brand_score cfg row < 51 / 100 := by
    rw [h1]
    norm_num
  have h3 : brand_score_final jw cfg row = 1 := by
    unfold brand_score_final
    rw [h1]
    split_ifs with hu hlt
    · norm_num at hlt
    · exact pyRound2_one
    · rfl
  refine ⟨h1, h2, h3, ?_⟩
  unfold needs_review_brand needs_review_flag
  rw [h3, if_neg (by norm_num)]

/-! ## Claim C2 -/

/-- Claim C2 counterexample: `"ab"` and `"cd"` share no characters after
cleaning, yet with empty auxiliary attributes and alpha = beta = 0.5 the
combined similarity is 0.33, not 0.0 — both combined strings contain the
space separator appended on line 73-74 of `src/app.py`. -/
theorem c2_counterexample :
    (clean_text "ab".data).toFinset ∩ (clean_text "cd".data).toFinset = ∅ ∧
    combined_text_similarity (some "ab".data) (some "cd".data) []
      (1 / 2) (1 / 2) = 33 / 100 ∧
    combined_text_similarity (some "ab".data) (some "cd".data) []
      (1 / 2) (1 / 2) ≠ 0 := by
  have hA : combinedStr (some "ab".data) [] = "ab ".data := by decide
  have hB : combinedStr (some "cd".data) [] = "cd ".data := by decide
  have hscore : combined_text_similarity (some "ab".data) (some "cd".data) []
      (1 / 2) (1 / 2) = 33 / 100 := by
    unfold combined_text_similarity
    rw [hA, hB]
    unfold tversky_similarity tversky_total
    rw [show ("ab ".data.toFinset ∩ "cd ".data.toFinset).card = 1 from by decide,
      show ("ab ".data.toFinset \ "cd ".data.toFinset).card = 2 from by decide,
      show ("cd ".data.toFinset \ "ab ".data.toFinset).card = 2 from by decide,
      if_neg (by push_cast; norm_num)]
    rw [pyRound2_eq_low _ 33 (by push_cast; norm_num) (by push_cast; norm_num)]
    norm_num
  exact ⟨by decide, hscore, by rw [hscore]; norm_num⟩

/-- Claim C2 (amended): when the cleaned strings share no characters the
underlying set metric `tversky_similarity`, applied directly to the two
cleaned strings, returns 0.0 for every alpha and beta; the combined score
of the pipeline, which appends a shared space separator and the shared
auxiliary pool to both sides before comparing, need not return 0.0. -/
theorem tversky_zero_of_disjoint_clean (a b : List Char) (alpha beta : ℚ)
    (h : (clean_text a).toFinset ∩ (clean_text b).toFinset = ∅) :
    tversky_similarity (clean_text a) (clean_text b) alpha beta = 0 := by
  unfold tversky_similarity tversky_total
  rw [h]
  simp only [Finset.card_empty, Nat.cast_zero]
  split_ifs with h0
  · exact pyRound2_zero
  · rw [zero_div]
    exact pyRound2_zero

theorem tversky_zero_of_disjoint_clean_witness :
    (clean_text "ab!".data).toFinset ∩ (clean_text "CD".data).toFinset = ∅ ∧
    tversky_similarity (clean_text "ab!".data) (clean_text "CD".data)
      (1 / 2) (1 / 2) = 0 :=
  ⟨by decide,
    tversky_zero_of_disjoint_clean "ab!".data "CD".data (1 / 2) (1 / 2) (by decide)⟩

/-! ## Claim C7 -/

/-- Claim C7: for all inputs, auxiliary attributes and nonnegative
coefficients, the combined similarity score is an integer multiple of
1/100 within the closed interval [0, 1]; and whenever the Tversky
denominator is 0 the score is 0. -/
theorem score_bounded_two_decimals (a b : Option (List Char))
    (additional : List (Option (List Char))) (alpha beta : ℚ)
    (ha : 0 ≤ alpha) (hb : 0 ≤ beta) :
    (∃ k : ℤ, combined_text_similarity a b additional alpha beta = (k : ℚ) / 100) ∧
    0 ≤ combined_text_similarity a b additional alpha beta ∧
    combined_text_similarity a b additional alpha beta ≤ 1 ∧
    (∀ x y : List Char, tversky_total x y alpha beta = 0 →
      tversky_similarity x y alpha beta = 0) := by
  refine ⟨tversky_int_div _ _ _ _, ?_, ?_, ?_⟩
  · exact (tversky_mem_unit _ _ alpha beta ha hb).1
  · exact (tversky_mem_unit _ _ alpha beta ha hb).2
  · intro x y h0
    unfold tversky_similarity
    rw [if_pos h0]
    exact pyRound2_zero

theorem score_bounded_two_decimals_witness :
    (0 : ℚ) ≤ 1 / 2 ∧
    ((∃ k : ℤ, combined_text_similarity (some "ab".data) (some "xyz".data)
        [some "12oz".data] (1 / 2) (1 / 2) = (k : ℚ) / 100) ∧
      0 ≤ combined_text_similarity (some "ab".data) (some "xyz".data)
        [some "12oz".data] (1 / 2) (1 / 2) ∧
      combined_text_similarity (some "ab".data) (some "xyz".data)
        [some "12oz".data] (1 / 2) (1 / 2) ≤ 1 ∧
      (∀ x y : List Char, tversky_total x y (1 / 2) (1 / 2) = 0 →
        tversky_similarity x y (1 / 2) (1 / 2) = 0)) :=
  ⟨by norm_num,
    score_bounded_two_decimals (some "ab".data) (some "xyz".data)
      [some "12oz".data] (1 / 2) (1 / 2) (by norm_num) (by norm_num)⟩

/-! ## Claim C8 -/

/-- Claim C8: the review flag is `'Y'` exactly when the score is at most
the fixed threshold 0.75, and a score equal to the threshold is flagged. -/
theorem needs_review_boundary_inclusive :
    (∀ s : ℚ, needs_review_flag s = "Y" ↔ s ≤ 3 / 4) ∧
    needs_review_flag (3 / 4) = "Y" := by
  constructor
  · intro s
    unfold needs_review_flag
    split_ifs with h
    · simp [h]
    · simp only [h, iff_false]
      decide
  · unfold needs_review_flag
    norm_num

/-! ## Claim C9 -/

/-- Claim C9: swapping the two operands together with the two coefficients
leaves `tversky_similarity` unchanged, while swapping only the operands
changes the score in general (witness: a = "ab", b = "abc",
alpha = 0.1, beta = 0.9 gives 0.69 vs 0.95). -/
theorem tversky_swap_symmetry :
    (∀ (a b : List Char) (alpha beta : ℚ),
      tversky_similarity a b alpha beta = tversky_similarity b a beta alpha) ∧
    tversky_similarity "ab".data "abc".data (1 / 10) (9 / 10) ≠
      tversky_similarity "abc".data "ab".data (1 / 10) (9 / 10) := by
  constructor
  · intro a b alpha beta
    have hi : a.toFinset ∩ b.toFinset = b.toFinset ∩ a.toFinset :=
      Finset.inter_comm _ _
    have ht : tversky_total a b alpha beta = tversky_total b a beta alpha := by
      unfold tversky_total
      rw [hi]
      ring
    unfold tversky_similarity
    rw [ht, hi]
  · have s1 : tversky_similarity "ab".data "abc".data (1 / 10) (9 / 10) = 69 / 100 := by
      unfold tversky_similarity tversky_total
      rw [show ("ab".data.toFinset ∩ "abc".data.toFinset).card = 2 from by decide,
        show ("ab".data.toFinset \ "abc".data.toFinset).card = 0 from by decide,
        show ("abc".data.toFinset \ "ab".data.toFinset).card = 1 from by decide,
        if_neg (by push_cast; norm_num)]
      rw [pyRound2_eq_high _ 68 (by push_cast; norm_num) (by push_cast; norm_num)]
      norm_num
    have s2 : tversky_similarity "abc".data "ab".data (1 / 10) (9 / 10) = 95 / 100 := by
      unfold tversky_similarity tversky_total
      rw [show ("abc".data.toFinset ∩ "ab".data.toFinset).card = 2 from by decide,
        show ("abc".data.toFinset \ "ab".data.toFinset).card = 1 from by decide,
        show ("ab".data.toFinset \ "abc".data.toFinset).card = 0 from by decide,
        if_neg (by push_cast; norm_num)]
      rw [pyRound2_eq_low _ 95 (by push_cast; norm_num) (by push_cast; norm_num)]
      norm_num
    rw [s1, s2]
    norm_num

/-! ## Claim C10 -/

/-- Claim C10: two strings equal after cleaning, compared with the same
auxiliary attribute list on both sides, score exactly 1.0 for all
nonnegative alpha and beta, and the Tversky denominator is nonzero. -/
theorem score_one_of_equal_cleaned (a b : List Char)
    (additional : List (Option (List Char))) (alpha beta : ℚ)
    (ha : 0 ≤ alpha) (hb : 0 ≤ beta)
    (h : clean_text a = clean_text b) :
    combined_text_similarity (some a) (some b) additional alpha beta = 1 ∧
    tversky_total (combinedStr (some a) additional)
      (combinedStr (some b) additional) alpha beta ≠ 0 := by
  have hcb : combinedStr (some a) additional = combinedStr (some b) additional := by
    unfold combinedStr
    rw [show pyStr (some a) = a from rfl, show pyStr (some b) = b from rfl, h]
  constructor
  · exact combined_one_of_clean_eq (some a) (some b) additional alpha beta h
  · rw [hcb]
    unfold tversky_total
    simp only [Finset.sdiff_self, Finset.card_empty, Nat.cast_zero, mul_zero,
      add_zero, Finset.inter_self]
    exact Nat.cast_ne_zero.mpr
      (toFinset_card_pos _ (combinedStr_ne_nil (some b) additional)).ne'

theorem score_one_of_equal_cleaned_witness :
    (0 : ℚ) ≤ 1 / 2 ∧ clean_text "Coke".data = clean_text "coke!".data ∧
    (combined_text_similarity (some "Coke".data) (some "coke!".data)
        [some "12oz".data, none] (1 / 2) (1 / 2) = 1 ∧
      tversky_total (combinedStr (some "Coke".data) [some "12oz".data, none])
        (combinedStr (some "coke!".data) [some "12oz".data, none])
        (1 / 2) (1 / 2) ≠ 0) :=
  ⟨by norm_num, by decide,
    score_one_of_equal_cleaned "Coke".data "coke!".data
      [some "12oz".data, none] (1 / 2) (1 / 2) (by norm_num) (by norm_num)
      (by decide)⟩

/-! ## Claim C4 -/

/-- Claim C4 counterexample: with raw name `"Diet CokeZero"` and storefront
brand `"Coke"`, the recommended name is `"Coke Diet Cokezero"` (title-casing
lowercases the inner Z).  Python `str.replace` deletes BOTH literal
occurrences of `"Coke"`, so the code's `separated_storefront_name` is
`"Diet zero"`, while removing only the first occurrence (as the claim
states) would give `"Diet Cokezero"`. -/
theorem c4_counterexample :
    recommended_storefront_name ⟨"Diet CokeZero".data, some "Coke".data, none, []⟩ [] =
      "Coke Diet Cokezero".data ∧
    separated_storefront_name ⟨"Diet CokeZero".data, some "Coke".data, none, []⟩ [] =
      "Diet zero".data ∧
    stripWs (removeFirstOcc "Coke".data "Coke Diet Cokezero".data) =
      "Diet Cokezero".data ∧
    separated_storefront_name ⟨"Diet CokeZero".data, some "Coke".data, none, []⟩ [] ≠
      stripWs (removeFirstOcc "Coke".data
        (recommended_storefront_name
          ⟨"Diet CokeZero".data, some "Coke".data, none, []⟩ [])) :=
  ⟨by decide, by decide, by decide, by decide⟩

theorem splitOnSubF_join (old : List Char) :
    ∀ (n : Nat) (s : List Char),
      (splitOnSubF old n s).flatten = pyReplaceDelF old n s := by
  intro n
  induction n with
  | zero =>
    intro s
    simp [splitOnSubF, pyReplaceDelF]
  | succ n ih =>
    intro s
    cases s with
    | nil => simp [splitOnSubF, pyReplaceDelF]
    | cons c cs =>
      by_cases h : (!old.isEmpty && List.isPrefixOf old (c :: cs)) = true
      · simp only [splitOnSubF, pyReplaceDelF, h, if_true, List.flatten_cons,
          List.nil_append]
        exact ih _
      · have hj := ih cs
        rcases hsp : splitOnSubF old n cs with _ | ⟨f, rest⟩
        · rw [hsp] at hj
          simp only [List.flatten_nil] at hj
          simp only [splitOnSubF, pyReplaceDelF, h, if_false, hsp, ← hj]
          simp
        · rw [hsp] at hj
          simp only [List.flatten_cons] at hj
          simp only [splitOnSubF, pyReplaceDelF, h, if_false, hsp,
            List.flatten_cons, List.cons_append]
          rw [← hj]
          simp

/-- Claim C4 (amended): the product remainder (`separated_storefront_name`)
equals the recommended name with EVERY left-to-right non-overlapping
literal occurrence of the storefront brand substring removed — Python
`str.replace(brand, '')` replaces all occurrences, not only the first —
then trimmed.  Formally: the column equals the concatenation of the
fragments of the recommended name between occurrences of the brand,
stripped of surrounding whitespace. -/
theorem separated_name_removes_all_occurrences (row : Row)
    (mapping : List (List Char × List Char)) :
    separated_storefront_name row mapping =
      stripWs (List.flatten (splitOnSub (storefrontBrandValue row)
        (recommended_storefront_name row mapping))) := by
  unfold separated_storefront_name pyReplaceDel splitOnSub
  rw [splitOnSubF_join]

/-! ## Claim C5 -/

/-- Claim C5 is right about the intended behaviour but the code does not
implement it: on line 51 of `src/app.py` the column is converted with
`.astype(str)` BEFORE `.fillna('')`, so a null storefront brand becomes
the literal string `"nan"` (and `fillna` is a no-op on the resulting
all-string column).  Evaluating the pipeline at a row whose storefront
brand is null and whose raw name is `"Banana Bread"`: the brand value is
`"nan"`, and the recommended name is `"nan Banana Bread"` — not the
`" Banana Bread"` that empty-string coercion would give. -/
theorem null_brand_becomes_nan :
    storefrontBrandValue ⟨"Banana Bread".data, none, none, []⟩ = "nan".data ∧
    recommended_storefront_name ⟨"Banana Bread".data, none, none, []⟩ [] =
      "nan Banana Bread".data ∧
    recommended_storefront_name ⟨"Banana Bread".data, none, none, []⟩ [] ≠
      " Banana Bread".data :=
  ⟨by decide, by decide, by decide⟩

/-! ## Claim C3 -/

theorem subWordCI_nil (w repl : List Char) : subWordCI w repl [] = [] := rfl

theorem clean_and_translate_nil (brandCell : Option (List Char))
    (mapping : List (List Char × List Char)) :
    clean_and_translate_raw_name [] brandCell mapping = [] := by
  simp only [clean_and_translate_raw_name]
  have hfold : List.foldl (fun acc p => subWordCI p.1 p.2 acc)
      (enhanced_clean_text []) mapping = [] := by
    rw [show enhanced_clean_text [] = [] from rfl]
    induction mapping with
    | nil => rfl
    | cons p rest ih =>
      rw [List.foldl_cons, subWordCI_nil]
      exact ih
  rw [hfold]
  cases brandCell <;> rfl

theorem pyReplaceDelF_nil (old : List Char) (n : Nat) :
    pyReplaceDelF old n [] = [] := by
  cases n <;> rfl

theorem replace_brand_space (brand : List Char) :
    stripWs (pyReplaceDel brand (brand ++ [' '])) = [] := by
  cases brand with
  | nil => decide
  | cons c bs =>
    unfold pyReplaceDel
    have hlen : ((c :: bs) ++ [' ']).length = bs.length + 1 + 1 := by
      simp
    rw [hlen, show (c :: bs) ++ [' '] = c :: (bs ++ [' ']) from rfl, pyReplaceDelF]
    have hpre : (!List.isEmpty (c :: bs) &&
        List.isPrefixOf (c :: bs) (c :: (bs ++ [' ']))) = true := by
      simp only [List.isEmpty_cons, Bool.not_false, Bool.true_and,
        List.isPrefixOf_iff_prefix]
      exact List.prefix_append _ _
    have hdrop : List.drop (c :: bs).length (c :: (bs ++ [' '])) = [' '] :=
      List.drop_left (c :: bs) [' ']
    rw [if_pos hpre, hdrop]
    by_cases hp : (!List.isEmpty (c :: bs) && List.isPrefixOf (c :: bs) [' ']) = true
    · cases bs with
      | nil =>
        rw [pyReplaceDelF, if_pos hp]
        rfl
      | cons d ds =>
        exfalso
        simp only [List.isEmpty_cons, Bool.not_false, Bool.true_and] at hp
        rw [List.isPrefixOf_iff_prefix] at hp
        have := hp.length_le
        simp at this
    · rw [pyReplaceDelF, if_neg hp, pyReplaceDelF_nil]
      decide

theorem tversky_vs_space (A : List Char) :
    tversky_similarity (A ++ [' ']) [' '] (1 / 2) (1 / 2) =
      pyRound2 (2 / (2 + ((A.toFinset \ {' '}).card : ℚ))) := by
  have hsa : (A ++ [' ']).toFinset = A.toFinset ∪ {' '} := by
    rw [List.toFinset_append]
    rfl
  have hsb : ([' '] : List Char).toFinset = {' '} := rfl
  have hmem : ' ' ∈ (A ++ [' ']).toFinset := by
    rw [hsa]
    simp
  have hi : (A ++ [' ']).toFinset ∩ ([' '] : List Char).toFinset = {' '} := by
    rw [hsb, Finset.inter_comm]
    exact Finset.singleton_inter_of_mem hmem
  have hda : (A ++ [' ']).toFinset \ ([' '] : List Char).toFinset =
      A.toFinset \ {' '} := by
    rw [hsb, hsa]
    exact Finset.union_sdiff_right _ _
  have hdb : ([' '] : List Char).toFinset \ (A ++ [' ']).toFinset = ∅ := by
    rw [hsb]
    rw [Finset.sdiff_eq_empty_iff_subset, Finset.singleton_subset_iff]
    exact hmem
  have hk0 : (0 : ℚ) ≤ ((A.toFinset \ {' '}).card : ℚ) := Nat.cast_nonneg _
  have htot : tversky_total (A ++ [' ']) [' '] (1 / 2) (1 / 2) =
      1 + 1 / 2 * ((A.toFinset \ {' '}).card : ℚ) := by
    unfold tversky_total
    rw [hi, hda, hdb]
    simp
  unfold tversky_similarity
  rw [htot, hi, if_neg (by linarith)]
  congr 1
  rw [Finset.card_singleton]
  have hne1 : (1 : ℚ) + 1 / 2 * ((A.toFinset \ {' '}).card : ℚ) ≠ 0 := by
    positivity
  have hne2 : (2 : ℚ) + ((A.toFinset \ {' '}).card : ℚ) ≠ 0 := by
    positivity
  rw [div_eq_div_iff hne1 hne2]
  push_cast
  ring

/-- Claim C3 counterexample: the row with an empty raw name, storefront
brand `"Coke"` and storefront name `"Pepsi"`, scored with the default
alpha = beta = 0.5 and no auxiliary columns, gets `name_score` 0.33 —
not the 0.0 the claim asserts (the two combined strings share the space
separator, so the intersection is never empty). -/
theorem c3_counterexample :
    name_score ⟨1 / 2, 1 / 2, 4, false⟩
      ⟨[], some "Coke".data, some "Pepsi".data, []⟩ [] = 33 / 100 ∧
    name_score ⟨1 / 2, 1 / 2, 4, false⟩
      ⟨[], some "Coke".data, some "Pepsi".data, []⟩ [] ≠ 0 := by
  have hs : name_score ⟨1 / 2, 1 / 2, 4, false⟩
      ⟨[], some "Coke".data, some "Pepsi".data, []⟩ [] = 33 / 100 := by
    unfold name_score combined_text_similarity
    rw [show combinedStr (⟨[], some "Coke".data, some "Pepsi".data, []⟩ : Row).storefrontName
        (⟨[], some "Coke".data, some "Pepsi".data, []⟩ : Row).additional = "pepsi ".data from by decide,
      show combinedStr (some (separated_storefront_name
          ⟨[], some "Coke".data, some "Pepsi".data, []⟩ []))
        (⟨[], some "Coke".data, some "Pepsi".data, []⟩ : Row).additional = " ".data from by decide]
    unfold tversky_similarity tversky_total
    rw [show ("pepsi ".data.toFinset ∩ " ".data.toFinset).card = 1 from by decide,
      show ("pepsi ".data.toFinset \ " ".data.toFinset).card = 4 from by decide,
      show (" ".data.toFinset \ "pepsi ".data.toFinset).card = 0 from by decide,
      if_neg (by push_cast; norm_num)]
    rw [pyRound2_eq_low _ 33 (by push_cast; norm_num) (by push_cast; norm_num)]
    norm_num
  exact ⟨hs, by rw [hs]; norm_num⟩

/-- Claim C3 (amended): a row whose raw name is the empty string gets
`cleaned_raw_name` and `separated_storefront_name` (`cleaned_name`) equal
to the empty string, and — with the default alpha = beta = 0.5 and no
auxiliary columns — its `name_score` is `round(2 / (2 + k), 2)`, where `k`
counts the distinct non-space characters of the cleaned storefront name.
The score is therefore 1.0 with `needs_review_name = 'N'` when the cleaned
storefront name has no non-space character, and at most 0.67 (but not 0.0)
with `needs_review_name = 'Y'` otherwise; `name_score` is never the 0.0
the original claim asserts for a nonempty storefront name. -/
theorem empty_raw_name_scores (cfg : Config) (row : Row)
    (mapping : List (List Char × List Char))
    (hraw : row.rawName = []) (haux : row.additional = [])
    (hal : cfg.alpha = 1 / 2) (hbe : cfg.beta = 1 / 2) :
    cleaned_raw_name row mapping = [] ∧
    separated_storefront_name row mapping = [] ∧
    name_score cfg row mapping = pyRound2 (2 / (2 +
      (((clean_text (pyStr row.storefrontName)).toFinset \ {' '}).card : ℚ))) ∧
    (((clean_text (pyStr row.storefrontName)).toFinset \ {' '}).card = 0 →
      name_score cfg row mapping = 1 ∧ needs_review_name cfg row mapping = "N") ∧
    (1 ≤ ((clean_text (pyStr row.storefrontName)).toFinset \ {' '}).card →
      name_score cfg row mapping ≤ 67 / 100 ∧
      needs_review_name cfg row mapping = "Y") := by
  have h1 : cleaned_raw_name row mapping = [] := by
    unfold cleaned_raw_name
    rw [hraw]
    exact clean_and_translate_nil _ _
  have h2 : separated_storefront_name row mapping = [] := by
    unfold separated_storefront_name recommended_storefront_name
    rw [h1]
    exact replace_brand_space _
  have h3 : name_score cfg row mapping = pyRound2 (2 / (2 +
      (((clean_text (pyStr row.storefrontName)).toFinset \ {' '}).card : ℚ))) := by
    unfold name_score combined_text_similarity
    have hb2 : combinedStr (some (separated_storefront_name row mapping)) [] =
        [' '] := by
      rw [h2]
      rfl
    rw [haux, hal, hbe, hb2]
    rw [show combinedStr row.storefrontName [] =
        clean_text (pyStr row.storefrontName) ++ [' '] from rfl]
    exact tversky_vs_space _
  refine ⟨h1, h2, h3, ?_, ?_⟩
  · intro hk0
    have hsc : name_score cfg row mapping = 1 := by
      rw [h3, hk0]
      rw [show ((0 : ℕ) : ℚ) = 0 from rfl]
      rw [show (2 : ℚ) / (2 + 0) = 1 by norm_num]
      exact pyRound2_one
    refine ⟨hsc, ?_⟩
    unfold needs_review_name needs_review_flag
    rw [hsc, if_neg (by norm_num)]
  · intro hk1
    have hk : (1 : ℚ) ≤
        (((clean_text (pyStr row.storefrontName)).toFinset \ {' '}).card : ℚ) := by
      exact_mod_cast hk1
    have hpos : (0 : ℚ) < 2 +
        (((clean_text (pyStr row.storefrontName)).toFinset \ {' '}).card : ℚ) := by
      linarith
    have harg : (2 : ℚ) / (2 +
        (((clean_text (pyStr row.storefrontName)).toFinset \ {' '}).card : ℚ)) * 100
        ≤ 67 := by
      rw [div_mul_eq_mul_div, div_le_iff₀ hpos]
      linarith
    have hsc : name_score cfg row mapping ≤ 67 / 100 := by
      rw [h3]
      unfold pyRound2
      rw [div_le_div_iff_of_pos_right (by norm_num : (0 : ℚ) < 100)]
      exact_mod_cast rhe_le_int _ 67 harg
    refine ⟨hsc, ?_⟩
    unfold needs_review_name needs_review_flag
    rw [if_pos (by linarith)]

theorem empty_raw_name_scores_witness :
    (⟨[], some "Coke".data, some "Pepsi".data, []⟩ : Row).rawName = [] ∧
    (⟨[], some "Coke".data, some "Pepsi".data, []⟩ : Row).additional = [] ∧
    (cleaned_raw_name ⟨[], some "Coke".data, some "Pepsi".data, []⟩ [] = [] ∧
      separated_storefront_name ⟨[], some "Coke".data, some "Pepsi".data, []⟩ [] = [] ∧
      name_score ⟨1 / 2, 1 / 2, 4, false⟩
          ⟨[], some "Coke".data, some "Pepsi".data, []⟩ [] = pyRound2 (2 / (2 +
        (((clean_text (pyStr (⟨[], some "Coke".data, some "Pepsi".data, []⟩ : Row).storefrontName)).toFinset \ {' '}).card : ℚ))) ∧
      (((clean_text (pyStr (⟨[], some "Coke".data, some "Pepsi".data, []⟩ : Row).storefrontName)).toFinset \ {' '}).card = 0 →
        name_score ⟨1 / 2, 1 / 2, 4, false⟩
          ⟨[], some "Coke".data, some "Pepsi".data, []⟩ [] = 1 ∧
        needs_review_name ⟨1 / 2, 1 / 2, 4, false⟩
          ⟨[], some "Coke".data, some "Pepsi".data, []⟩ [] = "N") ∧
      (1 ≤ ((clean_text (pyStr (⟨[], some "Coke".data, some "Pepsi".data, []⟩ : Row).storefrontName)).toFinset \ {' '}).card →
        name_score ⟨1 / 2, 1 / 2, 4, false⟩
          ⟨[], some "Coke".data, some "Pepsi".data, []⟩ [] ≤ 67 / 100 ∧
        needs_review_name ⟨1 / 2, 1 / 2, 4, false⟩
          ⟨[], some "Coke".data, some "Pepsi".data, []⟩ [] = "Y")) :=
  ⟨rfl, rfl,
    empty_raw_name_scores ⟨1 / 2, 1 / 2, 4, false⟩
      ⟨[], some "Coke".data, some "Pepsi".data, []⟩ [] rfl rfl rfl rfl⟩

/-! ## Claim C6 -/

theorem dollarSubF_no_dollar (n : Nat) (l : List Char) (h : '$' ∉ l) :
    dollarSubF n l = l := by
  induction n generalizing l with
  | zero => rfl
  | succ n ih =>
    cases l with
    | nil => rfl
    | cons c cs =>
      have hc : ¬ c = '$' := fun hc => h (by rw [hc]; exact List.mem_cons_self _ _)
      rw [dollarSubF, if_neg hc, ih cs (fun hm => h (List.mem_cons_of_mem c hm))]

theorem dollarSub_no_dollar (l : List Char) (h : '$' ∉ l) : dollarSub l = l :=
  dollarSubF_no_dollar l.length l h

theorem mem_collapseF (b : Bool) (l : List Char) (c : Char)
    (h : c ∈ collapseF b l) : c = ' ' ∨ c ∈ l := by
  induction l generalizing b with
  | nil => cases h
  | cons d ds ih =>
    rw [collapseF] at h
    split_ifs at h with h1 h2
    · rcases ih true h with h3 | h3
      · exact Or.inl h3
      · exact Or.inr (List.mem_cons_of_mem d h3)
    · rcases List.mem_cons.mp h with h3 | h3
      · exact Or.inl h3
      · rcases ih true h3 with h4 | h4
        · exact Or.inl h4
        · exact Or.inr (List.mem_cons_of_mem d h4)
    · rcases List.mem_cons.mp h with h3 | h3
      · exact Or.inr (by rw [h3]; exact List.mem_cons_self _ _)
      · rcases ih false h3 with h4 | h4
        · exact Or.inl h4
        · exact Or.inr (List.mem_cons_of_mem d h4)

theorem dropWhile_append_decomp (p : Char → Bool) (l : List Char) :
    ∃ u, l = u ++ l.dropWhile p := by
  induction l with
  | nil => exact ⟨[], rfl⟩
  | cons c cs ih =>
    by_cases hc : p c = true
    · obtain ⟨u, hu⟩ := ih
      rw [List.dropWhile_cons, if_pos hc]
      exact ⟨c :: u, by rw [List.cons_append, ← hu]⟩
    · rw [List.dropWhile_cons, if_neg hc]
      exact ⟨[], rfl⟩

theorem dropTrailing_decomp (l : List Char) :
    ∃ v, l = dropTrailingWs l ++ v := by
  obtain ⟨u, hu⟩ := dropWhile_append_decomp isPySpace l.reverse
  refine ⟨u.reverse, ?_⟩
  unfold dropTrailingWs
  calc l = l.reverse.reverse := (List.reverse_reverse l).symm
  _ = (u ++ l.reverse.dropWhile isPySpace).reverse := by rw [← hu]
  _ = (l.reverse.dropWhile isPySpace).reverse ++ u.reverse := by
      rw [List.reverse_append]

theorem mem_dropWhile (p : Char → Bool) (l : List Char) (c : Char)
    (h : c ∈ l.dropWhile p) : c ∈ l := by
  obtain ⟨u, hu⟩ := dropWhile_append_decomp p l
  rw [hu]
  exact List.mem_append.mpr (Or.inr h)

theorem mem_stripWs (l : List Char) (c : Char) (h : c ∈ stripWs l) : c ∈ l := by
  unfold stripWs dropTrailingWs at h
  rw [List.mem_reverse] at h
  have h1 : c ∈ (l.dropWhile isPySpace).reverse := mem_dropWhile _ _ _ h
  rw [List.mem_reverse] at h1
  exact mem_dropWhile _ _ _ h1

theorem dropWhile_head_false (p : Char → Bool) (l : List Char) :
    ∀ c cs, l.dropWhile p = c :: cs → p c = false := by
  induction l with
  | nil =>
    intro c cs h
    simp at h
  | cons d ds ih =>
    intro c cs h
    rw [List.dropWhile_cons] at h
    split_ifs at h with hd
    · exact ih c cs h
    · injection h with h1 _
      subst h1
      simpa using hd

theorem dropWhile_self_of_head (p : Char → Bool) (l : List Char)
    (h : ∀ c cs, l = c :: cs → p c = false) : l.dropWhile p = l := by
  cases l with
  | nil => rfl
  | cons c cs =>
    rw [List.dropWhile_cons, if_neg]
    simp [h c cs rfl]

theorem dropTrailing_idem (l : List Char) :
    dropTrailingWs (dropTrailingWs l) = dropTrailingWs l := by
  unfold dropTrailingWs
  rw [List.reverse_reverse]
  congr 1
  apply dropWhile_self_of_head
  intro c cs h
  exact dropWhile_head_false isPySpace l.reverse c cs h

theorem stripWs_idem (l : List Char) : stripWs (stripWs l) = stripWs l := by
  unfold stripWs
  have hdw : (dropTrailingWs (l.dropWhile isPySpace)).dropWhile isPySpace =
      dropTrailingWs (l.dropWhile isPySpace) := by
    apply dropWhile_self_of_head
    intro c cs h
    obtain ⟨v, hv⟩ := dropTrailing_decomp (l.dropWhile isPySpace)
    have hl : l.dropWhile isPySpace = c :: (cs ++ v) := by
      calc l.dropWhile isPySpace
          = dropTrailingWs (l.dropWhile isPySpace) ++ v := hv
      _ = (c :: cs) ++ v := by rw [h]
      _ = c :: (cs ++ v) := rfl
    exact dropWhile_head_false isPySpace l c (cs ++ v) hl
  rw [hdw, dropTrailing_idem]

theorem okWsF_collapseF (l : List Char) :
    ∀ b : Bool, okWsF b (collapseF b l) = true := by
  induction l with
  | nil =>
    intro b
    rfl
  | cons d ds ih =>
    intro b
    by_cases hd : isPySpace d = true
    · cases b with
      | true =>
        rw [collapseF, if_pos hd, if_pos rfl]
        exact ih true
      | false =>
        rw [collapseF, if_pos hd, if_neg (by simp)]
        rw [okWsF, if_pos (by decide)]
        simpa using ih true
    · cases b with
      | true =>
        rw [collapseF, if_neg hd, okWsF, if_neg hd]
        exact ih false
      | false =>
        rw [collapseF, if_neg hd, okWsF, if_neg hd]
        exact ih false

theorem collapseF_of_okWsF (l : List Char) :
    ∀ b : Bool, okWsF b l = true → collapseF b l = l := by
  induction l with
  | nil =>
    intro b _
    rfl
  | cons d ds ih =>
    intro b h
    rw [okWsF] at h
    by_cases hd : isPySpace d = true
    · rw [if_pos hd] at h
      cases b with
      | true => simp at h
      | false =>
        simp only [Bool.not_false, Bool.true_and, Bool.and_eq_true,
          beq_iff_eq] at h
        obtain ⟨hd2, h2⟩ := h
        rw [collapseF, if_pos hd, if_neg (by simp), hd2, ih true h2]
    · rw [if_neg hd] at h
      rw [collapseF, if_neg hd, ih false h]

theorem okWsF_append_left (s t : List Char) :
    ∀ b : Bool, okWsF b (s ++ t) = true → okWsF b s = true := by
  induction s with
  | nil =>
    intro b _
    rfl
  | cons c cs ih =>
    intro b h
    rw [List.cons_append, okWsF] at h
    rw [okWsF]
    by_cases hc : isPySpace c = true
    · rw [if_pos hc] at h ⊢
      simp only [Bool.and_eq_true] at h ⊢
      exact ⟨h.1, ih true h.2⟩
    · rw [if_neg hc] at h ⊢
      exact ih false h

theorem okWsF_dropWhile (l : List Char) :
    ∀ b b' : Bool, okWsF b l = true →
      okWsF b' (l.dropWhile isPySpace) = true := by
  induction l with
  | nil =>
    intro b b' _
    rfl
  | cons c cs ih =>
    intro b b' h
    rw [okWsF] at h
    by_cases hc : isPySpace c = true
    · rw [if_pos hc] at h
      rw [List.dropWhile_cons, if_pos hc]
      simp only [Bool.and_eq_true] at h
      exact ih true b' h.2
    · rw [if_neg hc] at h
      rw [List.dropWhile_cons, if_neg hc, okWsF, if_neg hc]
      exact h

theorem no_dollar_enhanced (l : List Char) (h : '$' ∉ l) :
    '$' ∉ enhanced_clean_text l := by
  intro hc
  unfold enhanced_clean_text collapseWs at hc
  rw [dollarSub_no_dollar l h] at hc
  have h1 : '$' ∈ collapseF false l := mem_stripWs _ _ hc
  rcases mem_collapseF false l '$' h1 with h2 | h2
  · exact absurd h2 (by decide)
  · exact h h2

/-- Claim C6 counterexample: `enhanced_clean_text` is not idempotent.
On `"$$1.234"` the currency regex consumes `"$1.23"` (at most two decimal
digits), leaving `"$4"`; a second application then removes `"$4"`
entirely, so normalising twice gives `""` while normalising once gives
`"$4"`. -/
theorem c6_counterexample :
    enhanced_clean_text "$$1.234".data = "$4".data ∧
    enhanced_clean_text (enhanced_clean_text "$$1.234".data) = [] ∧
    enhanced_clean_text (enhanced_clean_text "$$1.234".data) ≠
      enhanced_clean_text "$$1.234".data :=
  ⟨by decide, by decide, by decide⟩

/-- Claim C6 (amended): the normaliser `enhanced_clean_text` is idempotent
on every string that contains no dollar sign (whitespace collapsing and
stripping are idempotent); on arbitrary strings a second application can
differ, because removing one currency substring can create a new one. -/
theorem normalize_idem_of_no_dollar (s : List Char) (h : '$' ∉ s) :
    enhanced_clean_text (enhanced_clean_text s) = enhanced_clean_text s := by
  have hstep : enhanced_clean_text s = stripWs (collapseF false s) := by
    unfold enhanced_clean_text collapseWs
    rw [dollarSub_no_dollar s h]
  have ht : '$' ∉ stripWs (collapseF false s) := by
    rw [← hstep]
    exact no_dollar_enhanced s h
  have hok : okWsF false (collapseF false s) = true := okWsF_collapseF s false
  have hokt : okWsF false (stripWs (collapseF false s)) = true := by
    unfold stripWs
    have hok2 : okWsF false ((collapseF false s).dropWhile isPySpace) = true :=
      okWsF_dropWhile _ false false hok
    obtain ⟨v, hv⟩ := dropTrailing_decomp ((collapseF false s).dropWhile isPySpace)
    apply okWsF_append_left _ v false
    rw [← hv]
    exact hok2
  have hcol : collapseF false (stripWs (collapseF false s)) =
      stripWs (collapseF false s) := collapseF_of_okWsF _ false hokt
  rw [hstep]
  unfold enhanced_clean_text collapseWs
  rw [dollarSub_no_dollar _ ht, hcol, stripWs_idem]

theorem normalize_idem_of_no_dollar_witness :
    ('$' ∉ " Diet  Coke 12 ".data) ∧
    enhanced_clean_text (enhanced_clean_text " Diet  Coke 12 ".data) =
      enhanced_clean_text " Diet  Coke 12 ".data :=
  ⟨by decide, normalize_idem_of_no_dollar " Diet  Coke 12 ".data (by decide)⟩

end NameProcessing
